import Mathlib

/-!
Verification of the OpenIFEM FSI core against its natural-language
specification.  The definitions below are shallow embeddings of the
C++ source files under `src/source/`:

* `linear_elasticity.cpp` — the solid Newmark-beta integrator
  (`LinearElasticity::run_one_step`, `LinearElasticity::assemble`,
  `LinearElasticity::update_strain_and_stress`);
* `mpi_shared_solid_solver.cpp` — checkpoint management
  (`SharedSolidSolver::save_checkpoint`);
* `mpi_sable_wrapper.cpp` — the external-coupling wrapper
  (`SableWrap::All`, `SableWrap::run`, `SableWrap::SableWrap`);
* `mpi_stokes.cpp` — the fluid integrator (`Stokes::assemble`,
  `Stokes::set_up_boundary_values`, `Stokes::Stokes`).

Real arithmetic from the C++ (`double`) is modelled exactly over `ℚ`;
distributed vectors are modelled as functions out of `Fin n`.
-/

namespace OpenIFEM

/-! ### Newmark constants (`LinearElasticity::run_one_step`, lines 358-360)

```
double alpha = -parameters.damping;
double gamma = 0.5 - alpha;
double beta = pow((1 - alpha), 2) / 4;
```
-/

/-- Source: `alpha = -parameters.damping` -/
def newmarkAlpha (damping : ℚ) : ℚ := -damping

/-- Source: `gamma = 0.5 - alpha` -/
def newmarkGamma (damping : ℚ) : ℚ := 1/2 - newmarkAlpha damping

/-- Source: `beta = pow((1 - alpha), 2) / 4` -/
def newmarkBeta (damping : ℚ) : ℚ := (1 - newmarkAlpha damping) ^ 2 / 4

/-! ### Vector primitives of the solid integrator

deal.II `Vector<double>` operations used in `run_one_step`:
`v.add(a, x)` performs `v += a*x`; `v.add(a, x, b, y)` performs
`v += a*x + b*y`; `M.vmult(dst, src)` OVERWRITES `dst` with `M*src`;
`v *= s` scales in place; `v -= w` subtracts componentwise.
-/

/-- A solid field over `n` degrees of freedom. -/
def Vec (n : ℕ) := Fin n → ℚ

/-- A (dense model of a) square matrix over `n` degrees of freedom. -/
def Mat (n : ℕ) := Fin n → Fin n → ℚ

/-- deal.II `v.add(a, x)` : `v += a*x`. -/
def vecAdd1 {n : ℕ} (v : Vec n) (a : ℚ) (x : Vec n) : Vec n :=
  fun i => v i + a * x i

/-- deal.II `v.add(a, x, b, y)` : `v += a*x + b*y`. -/
def vecAdd2 {n : ℕ} (v : Vec n) (a : ℚ) (x : Vec n) (b : ℚ) (y : Vec n) : Vec n :=
  fun i => v i + a * x i + b * y i

/-- deal.II `v -= w`. -/
def vecSub {n : ℕ} (v w : Vec n) : Vec n := fun i => v i - w i

/-- deal.II `v *= s`. -/
def vecScale {n : ℕ} (s : ℚ) (v : Vec n) : Vec n := fun i => s * v i

/-- deal.II `M.vmult(dst, src)`: the result `M * src`. -/
def vmult {n : ℕ} (M : Mat n) (src : Vec n) : Vec n :=
  fun i => ∑ j, M i j * src j

/-- deal.II `M.vmult(dst, src)` with its destination argument made
explicit: the previous contents of `dst` are discarded (overwritten),
which is why the model ignores them. -/
def vmultInto {n : ℕ} (M : Mat n) (dst : Vec n) (src : Vec n) : Vec n :=
  let _ := dst
  vmult M src

/-! ### Newmark update laws (`LinearElasticity::run_one_step`, lines 459-467)

```
current_velocity = previous_velocity;
current_velocity.add(dt * (1 - gamma), previous_acceleration);
current_velocity.add(dt * gamma, current_acceleration);
current_displacement = previous_displacement;
current_displacement.add(dt, previous_velocity);
current_displacement.add(dt * dt * (0.5 - beta), previous_acceleration);
current_displacement.add(dt * dt * beta, current_acceleration);
```
-/

/-- The velocity update of `run_one_step`, step by step as in the source. -/
def updateVelocity {n : ℕ} (dt gamma : ℚ)
    (previousVelocity previousAcceleration currentAcceleration : Vec n) : Vec n :=
  let v := previousVelocity
  let v := vecAdd1 v (dt * (1 - gamma)) previousAcceleration
  vecAdd1 v (dt * gamma) currentAcceleration

/-- The displacement update of `run_one_step`, step by step as in the source. -/
def updateDisplacement {n : ℕ} (dt beta : ℚ)
    (previousDisplacement previousVelocity previousAcceleration
     currentAcceleration : Vec n) : Vec n :=
  let d := previousDisplacement
  let d := vecAdd1 d dt previousVelocity
  let d := vecAdd1 d (dt * dt * (1/2 - beta)) previousAcceleration
  vecAdd1 d (dt * dt * beta) currentAcceleration

/-! ### Effective right-hand side (`LinearElasticity::run_one_step`, lines 422-454)

The FSI branch with the implicit Lagrangian penalty active
(`is_lag_penalty_explicit == false`):

```
Vector<double> tmp1(system_rhs);
auto tmp2 = previous_displacement;
tmp2.add(dt * (1 + alpha), previous_velocity,
         (0.5 - beta) * dt * dt * (1 + alpha), previous_acceleration);
Vector<double> tmp3(dof_handler.n_dofs());
stiffness_matrix.vmult(tmp3, tmp2);
tmp1 -= tmp3;
...
Vector<double> tmp4(dof_handler.n_dofs());
Vector<double> tmp5(dof_handler.n_dofs());
tmp4 *= dt * (1 - gamma);
damping_matrix.vmult(tmp4, previous_acceleration);
damping_matrix.vmult(tmp5, previous_velocity);
tmp1 -= tmp4;
tmp1 -= tmp5;
auto state = this->solve(system_matrix_updated, current_acceleration, tmp1);
```
-/

/-- The Newmark predictor `tmp2`. -/
def newmarkPredictor {n : ℕ} (dt alpha beta : ℚ)
    (previousDisplacement previousVelocity previousAcceleration : Vec n) : Vec n :=
  vecAdd2 previousDisplacement
    (dt * (1 + alpha)) previousVelocity
    ((1/2 - beta) * dt * dt * (1 + alpha)) previousAcceleration

/-- The right-hand side `tmp1` actually handed to the solve in the FSI,
implicit-penalty branch of `run_one_step`, traced statement by statement
from the source (`tmp4`/`tmp5` are freshly constructed zero vectors; the
`tmp4 *= dt * (1 - gamma)` happens before `damping_matrix.vmult(tmp4, ...)`
overwrites `tmp4`). -/
def effectiveRhs {n : ℕ} (dt alpha beta gamma : ℚ)
    (system_rhs : Vec n) (stiffness_matrix damping_matrix : Mat n)
    (previousDisplacement previousVelocity previousAcceleration : Vec n) : Vec n :=
  let tmp1 := system_rhs
  let tmp2 := newmarkPredictor dt alpha beta
    previousDisplacement previousVelocity previousAcceleration
  let tmp3 := vmult stiffness_matrix tmp2
  let tmp1 := vecSub tmp1 tmp3
  let tmp4 : Vec n := fun _ => 0
  let tmp5 : Vec n := fun _ => 0
  let tmp4 := vecScale (dt * (1 - gamma)) tmp4
  let tmp4 := vmultInto damping_matrix tmp4 previousAcceleration
  let tmp5 := vmultInto damping_matrix tmp5 previousVelocity
  let tmp1 := vecSub tmp1 tmp4
  vecSub tmp1 tmp5

/-! ### Fluid mass coefficients (`Stokes::assemble`, lines 396-548)

```
const double rho = parameters.fluid_rho;
const double rho_s = parameters.solid_rho;
const double dt_inv = 1.0 / time.get_delta_t();
const double theta = parameters.penalty_scale_factor;
const double mass_coef_s = (1.0 + theta) * rho_s * dt_inv;
const double mass_coef_f = rho * dt_inv;
...
if (ind == 0)
  local_matrix(i, j) += mass_coef_f * (phi_u[i] * phi_u[j]) * fe_values.JxW(q);
else
  local_matrix(i, j) += mass_coef_s * (phi_u[i] * phi_u[j]) * fe_values.JxW(q);
```
-/

/-- Source: `dt_inv = 1.0 / time.get_delta_t()` -/
def dt_inv (dt : ℚ) : ℚ := 1 / dt

/-- Source: `mass_coef_f = rho * dt_inv` -/
def mass_coef_f (rho dt : ℚ) : ℚ := rho * dt_inv dt

/-- Source: `mass_coef_s = (1.0 + theta) * rho_s * dt_inv` -/
def mass_coef_s (theta rho_s dt : ℚ) : ℚ := (1 + theta) * rho_s * dt_inv dt

/-- The mass coefficient the assembly loop multiplies into the velocity
mass term of `local_matrix(i, j)`, selected by the cell's indicator
(`if (ind == 0) ... mass_coef_f ... else ... mass_coef_s ...`). -/
def cellMassCoef (ind : ℤ) (theta rho rho_s dt : ℚ) : ℚ :=
  if ind = 0 then mass_coef_f rho dt else mass_coef_s theta rho_s dt

/-- One cell's velocity mass-term contribution to `local_matrix(i, j)`
accumulated over the `nq` quadrature points; `phiDot q` stands for
`phi_u[i] * phi_u[j]` at point `q` and `jxw q` for `fe_values.JxW(q)`. -/
def localMassEntry (ind : ℤ) (theta rho rho_s dt : ℚ) {nq : ℕ}
    (phiDot jxw : Fin nq → ℚ) : ℚ :=
  ∑ q, cellMassCoef ind theta rho rho_s dt * phiDot q * jxw q

/-! ### Element-degree checks (`Stokes::Stokes` and `SableWrap::SableWrap`)

`mpi_stokes.cpp`, lines 132-137 (degrees are C++ `unsigned int`, so the
difference wraps modulo `2^32`):

```
Assert(parameters.fluid_velocity_degree - parameters.fluid_pressure_degree ==
       1, ExcMessage("Velocity finite element should be one order higher ..."));
```

`mpi_sable_wrapper.cpp`, lines 16-19; the C++ expression
`a == b == 1` parses as `(a == b) == 1`, and the `bool` result of
`a == b` converts to `1` or `0`:

```
AssertThrow(parameters.fluid_velocity_degree == parameters.fluid_pressure_degree
            == 1, ExcMessage("Use 1st order elements for both pressure and velocity!"));
```
-/

/-- The condition checked by the `Stokes` constructor: the `unsigned`
difference of the two degrees equals 1. -/
def stokesDegreeCheck (v p : ℕ) : Bool :=
  (v + 2 ^ 32 - p) % 2 ^ 32 == 1

/-- The condition checked by the `SableWrap` constructor:
`(v == p) == 1` after bool-to-int conversion. -/
def sableWrapDegreeCheck (v p : ℕ) : Bool :=
  (if v == p then (1 : ℕ) else 0) == 1

/-! ### Solid material lookup (`LinearElasticity`)

Constructor, lines 12-20: `material` has `parameters.n_solid_parts`
entries.  `assemble`, lines 87-92:

```
int mat_id = cell->material_id();
if (material.size() == 1)
  mat_id = 1;
const double lambda = material[mat_id - 1].get_lambda();
const double mu = material[mat_id - 1].get_mu();
```

`update_strain_and_stress`, lines 553-556, likewise reads
`material[mat_id - 1]` after overriding `mat_id = 1` only when
`parameters.n_solid_parts == 1`.  Neither function checks
`mat_id - 1 < material.size()` before indexing; `std::vector::operator[]`
out of range is undefined behaviour, modelled here by `List.get?`
returning `none`. -/

/-- One solid material record, as built in the `LinearElasticity`
constructor from `parameters.E[i]`, `parameters.nu[i]`,
`parameters.solid_rho`, `parameters.eta[i]`. -/
structure LinearElasticMaterial where
  E : ℚ
  nu : ℚ
  rho : ℚ
  eta : ℚ
deriving DecidableEq, Repr

/-- The material record `LinearElasticity::assemble` reads for a cell:
`material[mat_id - 1]` after the single-material override, with the
unchecked out-of-range access surfaced as `none`. -/
def assembleMaterialAccess (material : List LinearElasticMaterial)
    (cellMaterialId : ℕ) : Option LinearElasticMaterial :=
  let mat_id := if material.length = 1 then 1 else cellMaterialId
  material.get? (mat_id - 1)

/-- The material record `LinearElasticity::update_strain_and_stress`
reads for a cell (`n_solid_parts` equals `material.length` by the
constructor). -/
def strainStressMaterialAccess (material : List LinearElasticMaterial)
    (n_solid_parts : ℕ) (cellMaterialId : ℕ) : Option LinearElasticMaterial :=
  let mat_id := if n_solid_parts = 1 then 1 else cellMaterialId
  material.get? (mat_id - 1)

/-! ### Mass lumping (`LinearElasticity::assemble`, lines 278-299)

```
for (unsigned int i = 0; i < dofs_per_cell; ++i)
  {
    double sum = 0;
    for (unsigned int j = 0; j < dofs_per_cell; ++j)
      sum = sum + local_matrix[i][j];
    for (unsigned int j = 0; j < dofs_per_cell; ++j)
      if (i == j) local_matrix[i][j] = sum; else local_matrix[i][j] = 0;
  }
```
-/

/-- The row sum of a matrix at row `i`. -/
def rowSum {n : ℕ} (M : Mat n) (i : Fin n) : ℚ := ∑ j, M i j

/-- The lumping loop: each diagonal entry becomes its row's sum, every
off-diagonal entry becomes zero. -/
def lumpLocal {n : ℕ} (M : Mat n) : Mat n :=
  fun i j => if i = j then rowSum M i else 0

/-- Modelled from the spec: `constraints.distribute_local_to_global`
(the deal.II Mesh/DoF collaborator, not part of this repository) is
described in the spec only as "distribute local contribution to global
system" with "constraint application (hanging-node and Dirichlet
elimination)"; it is modelled as a weighted scatter in which local
degree of freedom `i` contributes to global degree of freedom `r` with
weight `weight i r` (an unconstrained dof has weight 1 on its own
global index and 0 elsewhere; a hanging node carries its interpolation
weights, which sum to one). -/
structure CellContribution (n N : ℕ) where
  localM : Mat n
  weight : Fin n → Fin N → ℚ

/-- Modelled from the spec: scatter one cell's local matrix into the
global matrix through the constraint weights. -/
def distributeLocal {n N : ℕ} (M : Mat n) (w : Fin n → Fin N → ℚ) : Mat N :=
  fun r c => ∑ i, ∑ j, w i r * M i j * w j c

/-- The globally assembled matrix: the sum of all cells' distributed
contributions, of the lumped local matrices when `lump` is set (as
`assemble` does for the mass matrix) and of the consistent ones
otherwise. -/
def assembleGlobal {n N : ℕ} (cells : List (CellContribution n N))
    (lump : Bool) : Mat N :=
  fun r c =>
    (cells.map fun cw =>
      distributeLocal (if lump then lumpLocal cw.localM else cw.localM)
        cw.weight r c).sum

/-! ### Checkpoint saving (`SharedSolidSolver::save_checkpoint`, lines 857-911)

On rank 0 the function scans the working directory for files with
extension `.solid_checkpoint_displacement` into a `std::set` (iterated
in ascending filename order; stems are zero-padded step indices, so
ascending filename order is ascending step order), then

```
while (checkpoints.size() > 1)
  {
    fs::remove(to_be_removed);                      // plus the two
    ...                                             // companion files
    checkpoints.erase(checkpoints.begin());         // drop the OLDEST
  }
```

and only afterwards writes the new three-file set under the stem of
`output_index`.  The disk is modelled as the ascending list of stems of
the checkpoint sets present (each stem standing for its three companion
files, which are created and removed together). -/

/-- Writing a checkpoint set with stem `idx`: insert into the ascending
stem list (writing an existing stem overwrites that set). -/
def insertStem (idx : ℕ) : List ℕ → List ℕ
  | [] => [idx]
  | x :: xs =>
      if idx < x then idx :: x :: xs
      else if idx = x then x :: xs
      else x :: insertStem idx xs

/-- The pruning loop `while (checkpoints.size() > 1) remove *begin`:
drop the oldest stems until at most one remains. -/
def removeExcess : List ℕ → List ℕ
  | [] => []
  | [x] => [x]
  | _ :: y :: ys => removeExcess (y :: ys)

/-- The body of `SharedSolidSolver::save_checkpoint` as a disk transformer: prune
the previously existing sets to at most one, then write the new set. -/
def save_checkpoint (disk : List ℕ) (idx : ℕ) : List ℕ :=
  insertStem idx (removeExcess disk)

/-- Sequential saves at the given step indices. -/
def seqSaves (disk : List ℕ) (idxs : List ℕ) : List ℕ :=
  idxs.foldl save_checkpoint disk

/-! ### External-coupling exchange loop (`SableWrap`, `mpi_sable_wrapper.cpp`)

```
bool SableWrap<dim>::All(bool my_b)
{
  int ib = (my_b == true ? 0 : 1);
  int result = 0;
  MPI_Allreduce(&ib, &result, 1, MPI_INT, MPI_MAX, MPI_COMM_WORLD);
  return (result == 0);
}
```

`run` loops `while (is_comm_active)`, and each non-initial
`run_one_step` executes `is_comm_active = All(is_comm_active);`.
`MPI_Allreduce(MPI_MAX)` delivers the maximum of all ranks'
contributions, the same value on every rank. -/

/-- The reduction `SableWrap::All` as a function of all ranks' flags: each rank
contributes `0` when active and `1` when inactive, the values are
max-reduced, and the (rank-independent) result is `true` iff the
maximum is `0`. -/
def All (flags : List Bool) : Bool :=
  ((flags.map fun b => if b then (0 : ℕ) else 1).foldl Nat.max 0) == 0

/-- The `while (is_comm_active)` loop of `SableWrap::run`: the shared
communication flag after `n` completed non-initial steps, where
`schedule k` lists every rank's `is_comm_active` value reduced at step
`k`.  It starts `true` and each step replaces it by `All` of that
step's flags (conjoined with the previous value: once `false` the loop
has exited). -/
def commActiveAfter (schedule : ℕ → List Bool) : ℕ → Bool
  | 0 => true
  | n + 1 => commActiveAfter schedule n && All (schedule n)

/-! ### Pressure pinning (`Stokes::set_up_boundary_values`, lines 216-299)

Each rank scans its locally owned pressure degrees of freedom for the
one whose support point lies closest to the anchor point, keeping the
first strictly smaller distance:

```
double local_min_distance = std::numeric_limits<double>::max();
for (... locally owned pressure DoFs ...)
  {
    double distance = it->second.distance(target_point);
    if (distance < local_min_distance) { local_min_distance = distance;
                                         local_fixed_pressure_dof = dof; ... }
  }
```

then the ranks agree on the winner via
`MPI_Allreduce(..., MPI_DOUBLE_INT, MPI_MINLOC, ...)` over
`(local_min_distance, rank)` — `MPI_MINLOC` selects the smaller value
and, on equal values, the smaller rank — the winning rank broadcasts
its dof index, and every rank that owns the broadcast dof adds the
constraint pinning it to zero:

```
if (dof_handler.locally_owned_dofs().is_element(global_fixed_pressure_dof))
  { constraints.add_line(global_fixed_pressure_dof);
    constraints.set_inhomogeneity(global_fixed_pressure_dof, 0.0); }
```

A rank is modelled by the list of its owned pressure dofs paired with
their (exact) distances to the anchor; `DBL_MAX` — the value a rank
with no pressure dof reports — is modelled by `⊤` in `WithTop ℚ`. -/

/-- One iteration of the per-rank scan: replace the tracked minimum
exactly when the new distance is strictly smaller
(`if (distance < local_min_distance)`); the `none` accumulator is the
initial `DBL_MAX`/invalid state, beaten by any real distance. -/
def scanStep (acc : Option (ℕ × ℚ)) (p : ℕ × ℚ) : Option (ℕ × ℚ) :=
  match acc with
  | none => some p
  | some q => if p.2 < q.2 then some p else acc

/-- The per-rank scan for the closest owned pressure dof (`none` when
the rank owns no pressure dof). -/
def localMinScan (dofs : List (ℕ × ℚ)) : Option (ℕ × ℚ) :=
  dofs.foldl scanStep none

/-- The distance a rank feeds into the `MPI_MINLOC` reduction:
its local minimum, or `⊤` (`DBL_MAX`) when it owns no pressure dof. -/
def distOf (dofs : List (ℕ × ℚ)) : WithTop ℚ :=
  match localMinScan dofs with
  | none => ⊤
  | some m => (m.2 : WithTop ℚ)

/-- The `MPI_MINLOC` combiner on `(value, rank)` pairs: smaller value
wins, equal values go to the smaller rank. -/
def minlocCombine (p q : WithTop ℚ × ℕ) : WithTop ℚ × ℕ :=
  if p.1 < q.1 then p
  else if q.1 < p.1 then q
  else if p.2 ≤ q.2 then p else q

/-- The `(value, rank)` pairs entering the reduction, rank `r0`
onwards. -/
def rankEntries (r0 : ℕ) : List (List (ℕ × ℚ)) → List (WithTop ℚ × ℕ)
  | [] => []
  | l :: ls => (distOf l, r0) :: rankEntries (r0 + 1) ls

/-- The `MPI_MINLOC` reduction over all ranks' entries. -/
def minlocReduce : List (WithTop ℚ × ℕ) → Option (WithTop ℚ × ℕ)
  | [] => none
  | x :: xs => some (xs.foldl minlocCombine x)

/-- The reduction result over all ranks, rank 0 first. -/
def minlocResult (ranks : List (List (ℕ × ℚ))) : Option (WithTop ℚ × ℕ) :=
  minlocReduce (rankEntries 0 ranks)

/-- The dof index the winning rank broadcasts
(`numbers::invalid_dof_index`, i.e. `none`, when it found none). -/
def selectedDof (ranks : List (List (ℕ × ℚ))) : Option ℕ :=
  match minlocResult ranks with
  | none => none
  | some (_, r) => (localMinScan (ranks.getD r [])).map Prod.fst

/-- Whether process `r` adds the pinning constraint: it does iff it
owns the broadcast dof. -/
def addsConstraint (ranks : List (List (ℕ × ℚ))) (r : ℕ) : Bool :=
  match selectedDof ranks with
  | none => false
  | some d => ((ranks.getD r []).map Prod.fst).contains d

/-- The constraint lines process `r` adds: the broadcast dof pinned to
inhomogeneity `0`, if owned. -/
def pinnedConstraints (ranks : List (List (ℕ × ℚ))) (r : ℕ) : List (ℕ × ℚ) :=
  match selectedDof ranks with
  | none => []
  | some d =>
      if ((ranks.getD r []).map Prod.fst).contains d then [(d, 0)] else []

/-! ## Theorems -/

/-- The pruning loop `removeExcess` keeps at most one stem. -/
theorem removeExcess_length_le_one (l : List ℕ) : (removeExcess l).length ≤ 1 := by
  induction l with
  | nil => simp [removeExcess]
  | cons x xs ih =>
      cases xs with
      | nil => simp [removeExcess]
      | cons y ys => simpa [removeExcess] using ih

/-- Writing a set via `insertStem` grows the listing by at most one entry. -/
theorem insertStem_length_le (idx : ℕ) (l : List ℕ) :
    (insertStem idx l).length ≤ l.length + 1 := by
  induction l with
  | nil => simp [insertStem]
  | cons x xs ih =>
      by_cases h1 : idx < x
      · simp [insertStem, h1]
      · by_cases h2 : idx = x
        · simp [insertStem, h1, h2]
        · simpa [insertStem, h1, h2] using ih

/-- A save onto a disk whose pruned listing is `[g]` with `g < idx`
leaves exactly the sets `[g, idx]`. -/
theorem save_checkpoint_eq (disk : List ℕ) (g idx : ℕ)
    (hre : removeExcess disk = [g]) (hlt : g < idx) :
    save_checkpoint disk idx = [g, idx] := by
  unfold save_checkpoint
  rw [hre]
  simp [insertStem, Nat.not_lt.mpr hlt.le, Nat.ne_of_gt hlt]

/-- Fold invariant for sequential saves: once the pruned disk holds a
single stem `g` smaller than every upcoming index, the remaining saves
end with exactly the last two indices on disk. -/
theorem seqSaves_aux (idxs : List ℕ) :
    ∀ (g : ℕ) (disk : List ℕ), removeExcess disk = [g] →
      ∀ (a b : ℕ), List.Chain' (· < ·) (g :: (idxs ++ [a, b])) →
        seqSaves disk (idxs ++ [a, b]) = [a, b] := by
  induction idxs with
  | nil =>
      intro g disk hre a b hchain
      simp only [List.nil_append, List.chain'_cons] at hchain
      obtain ⟨hga, hab, -⟩ := hchain
      have h1 : save_checkpoint disk a = [g, a] := save_checkpoint_eq disk g a hre hga
      have h2 : save_checkpoint [g, a] b = [a, b] :=
        save_checkpoint_eq [g, a] a b (by simp [removeExcess]) hab
      simp only [List.nil_append, seqSaves, List.foldl, h1, h2]
  | cons y ys ih =>
      intro g disk hre a b hchain
      simp only [List.cons_append, List.chain'_cons] at hchain
      obtain ⟨hgy, hchain⟩ := hchain
      have h1 : save_checkpoint disk y = [g, y] := save_checkpoint_eq disk g y hre hgy
      have h2 := ih y (save_checkpoint disk y) (by rw [h1]; simp [removeExcess]) a b
        (by simpa [List.chain'_cons] using hchain)
      simpa [seqSaves] using h2

/-- C1 as stated is false: two sequential saves at the distinct step
indices 1 then 2 leave two checkpoint sets on disk, not one — the
pruning loop runs before the new set is written, so the previous set
survives the save. -/
theorem checkpoint_retention_C1_counterexample :
    seqSaves [] [1, 2] = [1, 2] ∧ (seqSaves [] [1, 2]).length ≠ 1 := by
  constructor <;> simp [seqSaves, save_checkpoint, removeExcess, insertStem]

/-- C1 amended: a save leaves at most TWO checkpoint sets on disk; a
single save onto an empty disk leaves exactly one; and after `N ≥ 2`
sequential saves at strictly increasing step indices exactly two sets
remain — those of the two most recent saves. -/
theorem checkpoint_retention_C1 (disk : List ℕ) (idx : ℕ)
    (idxs : List ℕ) (a b : ℕ)
    (hchain : List.Chain' (· < ·) (idxs ++ [a, b])) :
    (save_checkpoint disk idx).length ≤ 2 ∧
    (∀ i : ℕ, seqSaves [] [i] = [i]) ∧
    seqSaves [] (idxs ++ [a, b]) = [a, b] := by
  refine ⟨?_, ?_, ?_⟩
  · calc (save_checkpoint disk idx).length
        ≤ (removeExcess disk).length + 1 := insertStem_length_le _ _
      _ ≤ 2 := by have := removeExcess_length_le_one disk; omega
  · intro i
    simp [seqSaves, save_checkpoint, removeExcess, insertStem]
  · cases idxs with
    | nil =>
        rw [List.nil_append] at hchain ⊢
        rw [List.chain'_cons] at hchain
        obtain ⟨hab, -⟩ := hchain
        have h1 : save_checkpoint [] a = [a] := by
          simp [save_checkpoint, removeExcess, insertStem]
        have h2 : save_checkpoint [a] b = [a, b] :=
          save_checkpoint_eq [a] a b (by simp [removeExcess]) hab
        simp only [seqSaves, List.foldl, h1, h2]
    | cons x rest =>
        have h1 : save_checkpoint [] x = [x] := by
          simp [save_checkpoint, removeExcess, insertStem]
        have h2 := seqSaves_aux rest x (save_checkpoint [] x)
          (by rw [h1]; simp [removeExcess]) a b (by simpa using hchain)
        simpa [seqSaves] using h2

/-- Witness for `checkpoint_retention_C1`: saves at indices 1, 2, 3. -/
theorem checkpoint_retention_C1_witness :
    List.Chain' (· < ·) ([1] ++ [2, 3]) ∧
    ((save_checkpoint [5] 7).length ≤ 2 ∧
     (∀ i : ℕ, seqSaves [] [i] = [i]) ∧
     seqSaves [] ([1] ++ [2, 3]) = [2, 3]) :=
  ⟨by norm_num [List.chain'_cons],
   checkpoint_retention_C1 [5] 7 [1] 2 3 (by norm_num [List.chain'_cons])⟩

/-- The max-fold underlying `All` vanishes iff every contribution does. -/
theorem foldl_max_eq_zero (l : List ℕ) :
    ∀ acc : ℕ, l.foldl Nat.max acc = 0 ↔ acc = 0 ∧ ∀ x ∈ l, x = 0 := by
  induction l with
  | nil => simp
  | cons x xs ih =>
      intro acc
      simp only [List.foldl_cons, ih (Nat.max acc x), List.mem_cons,
        Nat.max_eq_zero_iff]
      constructor
      · rintro ⟨⟨hacc, hx⟩, hall⟩
        exact ⟨hacc, fun y hy => hy.elim (fun h => h ▸ hx) (hall y)⟩
      · rintro ⟨hacc, hall⟩
        exact ⟨⟨hacc, hall x (Or.inl rfl)⟩, fun y hy => hall y (Or.inr hy)⟩

/-- C3 as stated is false: with two processes of which only the first
reports inactive, the reduction `All` already returns `false` and the
exchange loop terminates, although not every process reported
inactive. -/
theorem coupling_termination_C3_counterexample :
    All [false, true] = false ∧ ¬(∀ b ∈ [false, true], b = false) := by
  constructor
  · rfl
  · decide

/-- C3 amended: `All` returns `true` iff EVERY rank's flag is active,
so the loop continues exactly while all ranks are active and
terminates at the first step at which AT LEAST ONE rank reports
inactive (in particular at any step where all do); the reduced value is
a function of all ranks' flags only, hence identical on every rank, so
no rank exits at a different step than the others. -/
theorem coupling_termination_C3 (flags : List Bool)
    (schedule : ℕ → List Bool) (n : ℕ) :
    (All flags = true ↔ ∀ b ∈ flags, b = true) ∧
    (commActiveAfter schedule (n + 1) = false ↔
      ∃ j ≤ n, ∃ b ∈ schedule j, b = false) := by
  have hAll : ∀ fl : List Bool, All fl = true ↔ ∀ b ∈ fl, b = true := by
    intro fl
    simp only [All, beq_iff_eq, foldl_max_eq_zero, eq_self_iff_true, true_and]
    constructor
    · intro h b hb
      have := h (if b then 0 else 1) (List.mem_map_of_mem _ hb)
      cases b
      · simp at this
      · rfl
    · intro h x hx
      obtain ⟨b, hb, rfl⟩ := List.mem_map.1 hx
      simp [h b hb]
  refine ⟨hAll flags, ?_⟩
  have hAllF : ∀ fl : List Bool, All fl = false ↔ ∃ b ∈ fl, b = false := by
    intro fl
    rw [← Bool.not_eq_true, hAll fl]
    push_neg
    simp
  induction n with
  | zero =>
      have hstep : commActiveAfter schedule 1 = (true && All (schedule 0)) := rfl
      rw [hstep, Bool.true_and, hAllF]
      constructor
      · rintro ⟨b, hb, hbf⟩
        exact ⟨0, le_refl 0, b, hb, hbf⟩
      · rintro ⟨j, hj, b, hb, hbf⟩
        have hj0 : j = 0 := Nat.le_zero.mp hj
        exact ⟨b, hj0 ▸ hb, hbf⟩
  | succ m ih =>
      have hstep : commActiveAfter schedule (m + 2) =
          (commActiveAfter schedule (m + 1) && All (schedule (m + 1))) := rfl
      rw [hstep, Bool.and_eq_false_iff]
      simp only [ih, hAllF]
      constructor
      · rintro (⟨j, hj, hb⟩ | hb)
        · exact ⟨j, hj.trans (Nat.le_succ m), hb⟩
        · exact ⟨m + 1, le_refl _, hb⟩
      · rintro ⟨j, hj, hb⟩
        rcases Nat.lt_or_ge j (m + 1) with h | h
        · exact Or.inl ⟨j, Nat.lt_succ_iff.mp h, hb⟩
        · have hje : j = m + 1 := le_antisymm hj h
          exact Or.inr (hje ▸ hb)

/-- Lumping preserves every row sum of the local matrix. -/
theorem rowSum_lumpLocal {n : ℕ} (M : Mat n) (i : Fin n) :
    rowSum (lumpLocal M) i = rowSum M i := by
  unfold rowSum lumpLocal
  simp
  rfl

/-- A distributed local matrix's global row sum, when every local dof's
constraint weights sum to one. -/
theorem rowSum_distributeLocal {n N : ℕ} (M : Mat n) (w : Fin n → Fin N → ℚ)
    (hw : ∀ j, ∑ c, w j c = 1) (r : Fin N) :
    rowSum (distributeLocal M w) r = ∑ i, w i r * rowSum M i := by
  unfold rowSum distributeLocal
  rw [Finset.sum_comm]
  refine Finset.sum_congr rfl fun i _ => ?_
  rw [Finset.sum_comm, Finset.mul_sum]
  refine Finset.sum_congr rfl fun j _ => ?_
  rw [← Finset.mul_sum, hw j, mul_one]

/-- Global row sums of the lumped and of the consistent assembly agree,
cell by cell. -/
theorem rowSum_assembleGlobal {n N : ℕ} (cells : List (CellContribution n N))
    (r : Fin N) :
    (∀ cw ∈ cells, ∀ j : Fin n, ∑ c, cw.weight j c = 1) →
    rowSum (assembleGlobal cells true) r =
      rowSum (assembleGlobal cells false) r := by
  induction cells with
  | nil =>
      intro _
      simp [assembleGlobal, rowSum]
  | cons cw cs ih =>
      intro hw
      have hsplit : ∀ b : Bool, rowSum (assembleGlobal (cw :: cs) b) r =
          rowSum (distributeLocal
            (if b then lumpLocal cw.localM else cw.localM) cw.weight) r
            + rowSum (assembleGlobal cs b) r := by
        intro b
        unfold rowSum assembleGlobal
        simp only [List.map_cons, List.sum_cons]
        rw [Finset.sum_add_distrib]
      have hhead := hw cw (List.mem_cons_self cw cs)
      rw [hsplit true, hsplit false, if_pos rfl, if_neg Bool.false_ne_true,
        rowSum_distributeLocal _ _ hhead, rowSum_distributeLocal _ _ hhead,
        ih (fun c hc => hw c (List.mem_cons_of_mem cw hc))]
      congr 1
      exact Finset.sum_congr rfl fun i _ => by rw [rowSum_lumpLocal]

/-- C6 as stated is false in the Dirichlet case: a single cell with
two local dofs, dof 0 mapped identically to the only global dof and
dof 1 Dirichlet-eliminated (its weight row is all zero, summing to 0,
not 1), local matrix `[[1, 2], [3, 4]]`.  Lumping folds the eliminated
dof's coupling (the entry 2) into dof 0's diagonal before
distribution, so the lumped global row sum is `1 + 2 = 3` while the
consistent global row sum drops that entry and is `1`. -/
theorem mass_lumping_row_sums_C6_counterexample :
    (∑ c, (![![(1 : ℚ)], ![0]] : Fin 2 → Fin 1 → ℚ) 1 c = 0) ∧
    rowSum (assembleGlobal
      ([⟨![![1, 2], ![3, 4]], ![![1], ![0]]⟩] :
        List (CellContribution 2 1)) true) 0 ≠
    rowSum (assembleGlobal
      ([⟨![![1, 2], ![3, 4]], ![![1], ![0]]⟩] :
        List (CellContribution 2 1)) false) 0 := by
  constructor
  · simp
  · simp [rowSum, assembleGlobal, distributeLocal, lumpLocal,
      Fin.sum_univ_two, Fin.sum_univ_one]

/-- C6 amended: the lumping loop puts each row's sum on the diagonal
and zeroes the off-diagonal entries, so every lumped row sum equals
the consistent row sum for every local degree of freedom,
unconditionally; after all cells' contributions are scattered into the
global matrix the equality continues to hold wherever each local dof's
constraint weights sum to one — unconstrained dofs and hanging-node
interpolation — but not under Dirichlet elimination, whose zero-sum
weight rows make the two global row sums differ. -/
theorem mass_lumping_row_sums_C6 {n N : ℕ} (M : Mat n)
    (cells : List (CellContribution n N))
    (hw : ∀ cw ∈ cells, ∀ j : Fin n, ∑ c, cw.weight j c = 1) :
    (∀ i, lumpLocal M i i = rowSum M i) ∧
    (∀ i j, i ≠ j → lumpLocal M i j = 0) ∧
    (∀ i, rowSum (lumpLocal M) i = rowSum M i) ∧
    (∀ r, rowSum (assembleGlobal cells true) r =
          rowSum (assembleGlobal cells false) r) :=
  ⟨fun i => by simp [lumpLocal],
   fun i j hij => by simp [lumpLocal, hij],
   rowSum_lumpLocal M,
   fun r => rowSum_assembleGlobal cells r hw⟩

/-- Witness for `mass_lumping_row_sums_C6` on a one-dof cell with
identity constraint weights. -/
theorem mass_lumping_row_sums_C6_witness :
    (∀ cw ∈ ([⟨fun _ _ => 3, fun _ _ => 1⟩] : List (CellContribution 1 1)),
      ∀ j : Fin 1, ∑ c, cw.weight j c = 1) ∧
    ((∀ i, lumpLocal (fun _ _ => (2 : ℚ) : Mat 1) i i =
        rowSum (fun _ _ => (2 : ℚ) : Mat 1) i) ∧
     (∀ i j, i ≠ j → lumpLocal (fun _ _ => (2 : ℚ) : Mat 1) i j = 0) ∧
     (∀ i, rowSum (lumpLocal (fun _ _ => (2 : ℚ) : Mat 1)) i =
        rowSum (fun _ _ => (2 : ℚ) : Mat 1) i) ∧
     (∀ r, rowSum (assembleGlobal
          ([⟨fun _ _ => 3, fun _ _ => 1⟩] : List (CellContribution 1 1)) true) r =
        rowSum (assembleGlobal
          ([⟨fun _ _ => 3, fun _ _ => 1⟩] : List (CellContribution 1 1)) false) r)) :=
  ⟨by simp,
   mass_lumping_row_sums_C6 (fun _ _ => (2 : ℚ))
     [⟨fun _ _ => 3, fun _ _ => 1⟩] (by simp)⟩

/-- The `MPI_MINLOC` combiner returns one of its arguments, with the
smaller (value, rank) pair in the lexicographic sense. -/
theorem minlocCombine_spec (x y : WithTop ℚ × ℕ) :
    (minlocCombine x y = x ∨ minlocCombine x y = y) ∧
    (minlocCombine x y).1 ≤ x.1 ∧ (minlocCombine x y).1 ≤ y.1 ∧
    (x.1 = (minlocCombine x y).1 → (minlocCombine x y).2 ≤ x.2) ∧
    (y.1 = (minlocCombine x y).1 → (minlocCombine x y).2 ≤ y.2) := by
  unfold minlocCombine
  split_ifs with h1 h2 h3
  · exact ⟨Or.inl rfl, le_refl _, le_of_lt h1, fun _ => le_refl _,
      fun hy => absurd (hy ▸ h1) (lt_irrefl _)⟩
  · exact ⟨Or.inr rfl, le_of_lt h2, le_refl _,
      fun hx => absurd (hx ▸ h2) (lt_irrefl _), fun _ => le_refl _⟩
  · exact ⟨Or.inl rfl, le_refl _, not_lt.mp h2, fun _ => le_refl _, fun _ => h3⟩
  · exact ⟨Or.inr rfl, not_lt.mp h1, le_refl _,
      fun _ => le_of_lt (not_le.mp h3), fun _ => le_refl _⟩

/-- Specification of the left fold of the `MPI_MINLOC` combiner: the
result is one of the inputs, its value is minimal among them, and among
inputs attaining that value its rank is least. -/
theorem minloc_foldl_spec (xs : List (WithTop ℚ × ℕ)) :
    ∀ x : WithTop ℚ × ℕ,
      (xs.foldl minlocCombine x = x ∨ xs.foldl minlocCombine x ∈ xs) ∧
      (xs.foldl minlocCombine x).1 ≤ x.1 ∧
      (∀ y ∈ xs, (xs.foldl minlocCombine x).1 ≤ y.1) ∧
      (x.1 = (xs.foldl minlocCombine x).1 →
        (xs.foldl minlocCombine x).2 ≤ x.2) ∧
      (∀ y ∈ xs, y.1 = (xs.foldl minlocCombine x).1 →
        (xs.foldl minlocCombine x).2 ≤ y.2) := by
  induction xs with
  | nil => exact fun x => ⟨Or.inl rfl, le_refl _, by simp, fun _ => le_refl _, by simp⟩
  | cons y ys ih =>
      intro x
      obtain ⟨hacc_cases, hacc_le_x, hacc_le_y, hacc_tie_x, hacc_tie_y⟩ :=
        minlocCombine_spec x y
      obtain ⟨hmem, hle_acc, hle_all, htie_acc, htie_all⟩ := ih (minlocCombine x y)
      simp only [List.foldl_cons]
      set res := ys.foldl minlocCombine (minlocCombine x y) with hres
      have hres_le_x : res.1 ≤ x.1 := le_trans hle_acc hacc_le_x
      have hres_le_y : res.1 ≤ y.1 := le_trans hle_acc hacc_le_y
      refine ⟨?_, hres_le_x, ?_, ?_, ?_⟩
      · rcases hmem with h | h
        · rcases hacc_cases with ha | ha
          · exact Or.inl (h.trans ha)
          · exact Or.inr (by rw [h, ha]; exact List.mem_cons_self y ys)
        · exact Or.inr (List.mem_cons_of_mem y h)
      · intro z hz
        rcases List.mem_cons.mp hz with rfl | hz'
        · exact hres_le_y
        · exact hle_all z hz'
      · intro hx
        have hacc_eq : (minlocCombine x y).1 = res.1 :=
          le_antisymm (hx ▸ hacc_le_x) hle_acc
        exact le_trans (htie_acc hacc_eq)
          (hacc_tie_x (hx.trans hacc_eq.symm))
      · intro z hz hzres
        rcases List.mem_cons.mp hz with rfl | hz'
        · have hacc_eq : (minlocCombine x z).1 = res.1 :=
            le_antisymm (hzres ▸ hacc_le_y) hle_acc
          exact le_trans (htie_acc hacc_eq)
            (hacc_tie_y (hzres.trans hacc_eq.symm))
        · exact htie_all z hz' hzres

/-- Specification of the scan fold from a `some` accumulator: the
result is the accumulator or a scanned dof, and minimizes the distance
among them. -/
theorem scan_foldl_spec (dofs : List (ℕ × ℚ)) :
    ∀ q : ℕ × ℚ, ∃ m, dofs.foldl scanStep (some q) = some m ∧
      (m = q ∨ m ∈ dofs) ∧ m.2 ≤ q.2 ∧ ∀ p ∈ dofs, m.2 ≤ p.2 := by
  induction dofs with
  | nil => exact fun q => ⟨q, rfl, Or.inl rfl, le_refl _, by simp⟩
  | cons p rest ih =>
      intro q
      simp only [List.foldl_cons]
      by_cases h : p.2 < q.2
      · have hstep : scanStep (some q) p = some p := by simp [scanStep, h]
        rw [hstep]
        obtain ⟨m, hm, hmem, hle, hall⟩ := ih p
        refine ⟨m, hm, ?_, le_trans hle (le_of_lt h), ?_⟩
        · rcases hmem with rfl | hm'
          · exact Or.inr (List.mem_cons_self m rest)
          · exact Or.inr (List.mem_cons_of_mem p hm')
        · intro x hx
          rcases List.mem_cons.mp hx with rfl | hx'
          · exact hle
          · exact hall x hx'
      · have hstep : scanStep (some q) p = some q := by simp [scanStep, h]
        rw [hstep]
        obtain ⟨m, hm, hmem, hle, hall⟩ := ih q
        refine ⟨m, hm, ?_, hle, ?_⟩
        · rcases hmem with rfl | hm'
          · exact Or.inl rfl
          · exact Or.inr (List.mem_cons_of_mem p hm')
        · intro x hx
          rcases List.mem_cons.mp hx with rfl | hx'
          · exact le_trans hle (not_lt.mp h)
          · exact hall x hx'

/-- On a nonempty dof list the scan returns a member of minimal
distance. -/
theorem localMinScan_spec (dofs : List (ℕ × ℚ)) (h : dofs ≠ []) :
    ∃ m, localMinScan dofs = some m ∧ m ∈ dofs ∧ ∀ p ∈ dofs, m.2 ≤ p.2 := by
  cases dofs with
  | nil => exact absurd rfl h
  | cons p rest =>
      unfold localMinScan
      simp only [List.foldl_cons]
      have hstep : scanStep none p = some p := rfl
      rw [hstep]
      obtain ⟨m, hm, hmem, hle, hall⟩ := scan_foldl_spec rest p
      refine ⟨m, hm, ?_, ?_⟩
      · rcases hmem with rfl | hm'
        · exact List.mem_cons_self m rest
        · exact List.mem_cons_of_mem p hm'
      · intro x hx
        rcases List.mem_cons.mp hx with rfl | hx'
        · exact hle
        · exact hall x hx'

/-- The reported `distOf` is `⊤` exactly on a rank owning no pressure dof. -/
theorem distOf_eq_top_iff (dofs : List (ℕ × ℚ)) :
    distOf dofs = ⊤ ↔ dofs = [] := by
  constructor
  · intro h
    by_contra hne
    obtain ⟨m, hm, -, -⟩ := localMinScan_spec dofs hne
    rw [distOf, hm] at h
    exact WithTop.coe_ne_top h
  · rintro rfl
    rfl

/-- Every entry of `rankEntries r0 ranks` is rank `r0 + i`'s reported
local minimum distance, for some position `i`. -/
theorem rankEntries_mem (ranks : List (List (ℕ × ℚ))) :
    ∀ (r0 : ℕ), ∀ e ∈ rankEntries r0 ranks,
      ∃ i, i < ranks.length ∧ e = (distOf (ranks.getD i []), r0 + i) := by
  induction ranks with
  | nil => intro r0 e he; exact absurd he (List.not_mem_nil e)
  | cons l ls ih =>
      intro r0 e he
      rcases List.mem_cons.mp he with rfl | he'
      · exact ⟨0, Nat.succ_pos _, by simp⟩
      · obtain ⟨i, hi, hei⟩ := ih (r0 + 1) e he'
        exact ⟨i + 1, Nat.succ_lt_succ hi, by
          simpa [Nat.add_assoc, Nat.add_comm 1 i] using hei⟩

/-- Conversely, each rank's reported entry occurs in `rankEntries`. -/
theorem rankEntries_mem_rev (ranks : List (List (ℕ × ℚ))) :
    ∀ (r0 : ℕ) (i : ℕ), i < ranks.length →
      (distOf (ranks.getD i []), r0 + i) ∈ rankEntries r0 ranks := by
  induction ranks with
  | nil => intro r0 i hi; exact absurd hi (Nat.not_lt_zero i)
  | cons l ls ih =>
      intro r0 i hi
      cases i with
      | zero => simp [rankEntries]
      | succ j =>
          have := ih (r0 + 1) j (Nat.lt_of_succ_lt_succ hi)
          simp only [rankEntries, List.getD_cons_succ]
          exact List.mem_cons_of_mem _ (by
            simpa [Nat.add_assoc, Nat.add_comm 1 j] using this)

/-- C8: when some rank owns a pressure dof and dof ownership is
disjoint across ranks, the `MPI_MINLOC` selection yields one broadcast
dof `d` of distance `dist`, owned by the winning rank `r`; `dist` is
globally minimal among all ranks' dof distances; any rank reporting the
winning distance has index at least `r` (lowest rank wins ties); and
exactly one process — `r` — adds the constraint, pinning `d` to zero. -/
theorem pressure_pin_C8 (ranks : List (List (ℕ × ℚ)))
    (hne : ∃ l ∈ ranks, l ≠ [])
    (hnodup : (ranks.map fun l => l.map Prod.fst).flatten.Nodup) :
    ∃ (d : ℕ) (dist : ℚ) (r : ℕ),
      selectedDof ranks = some d ∧
      minlocResult ranks = some ((dist : WithTop ℚ), r) ∧
      r < ranks.length ∧
      (d, dist) ∈ ranks.getD r [] ∧
      (∀ l ∈ ranks, ∀ p ∈ l, dist ≤ p.2) ∧
      (∀ i, i < ranks.length →
        distOf (ranks.getD i []) = (dist : WithTop ℚ) → r ≤ i) ∧
      (Finset.range ranks.length).filter
        (fun i => addsConstraint ranks i = true) = {r} ∧
      pinnedConstraints ranks r = [(d, 0)] := by
  obtain ⟨l0, hl0mem, hl0ne⟩ := hne
  obtain ⟨e0, es, hE⟩ : ∃ e0 es, rankEntries 0 ranks = e0 :: es := by
    cases ranks with
    | nil => exact absurd hl0mem (List.not_mem_nil l0)
    | cons l ls => exact ⟨_, _, rfl⟩
  have hMRres : minlocResult ranks = some (es.foldl minlocCombine e0) := by
    unfold minlocResult
    rw [hE]
    rfl
  obtain ⟨hmem, hle0, hleall, htie0, htieall⟩ := minloc_foldl_spec es e0
  set res := es.foldl minlocCombine e0 with hresdef
  have hresmem : res ∈ rankEntries 0 ranks := by
    rw [hE]
    rcases hmem with h | h
    · rw [h]
      exact List.mem_cons_self e0 es
    · exact List.mem_cons_of_mem e0 h
  obtain ⟨r, hrlen, hresval⟩ := rankEntries_mem ranks 0 res hresmem
  rw [Nat.zero_add] at hresval
  have hmin : ∀ y ∈ rankEntries 0 ranks, res.1 ≤ y.1 := by
    rw [hE]
    intro y hy
    rcases List.mem_cons.mp hy with rfl | hy'
    · exact hle0
    · exact hleall y hy'
  have htie : ∀ y ∈ rankEntries 0 ranks, y.1 = res.1 → res.2 ≤ y.2 := by
    rw [hE]
    intro y hy
    rcases List.mem_cons.mp hy with rfl | hy'
    · exact htie0
    · exact htieall y hy'
  obtain ⟨i0, hi0, hlai0⟩ := List.mem_iff_getElem.mp hl0mem
  have hgetD0 : ranks.getD i0 [] = l0 := by rw [List.getD_eq_getElem ranks [] hi0, hlai0]
  have hl0top : distOf l0 ≠ ⊤ := by
    rw [Ne, distOf_eq_top_iff]
    exact hl0ne
  have hminl0 : res.1 ≤ distOf l0 := by
    have h := hmin _ (rankEntries_mem_rev ranks 0 i0 hi0)
    rw [hgetD0] at h
    exact h
  have hrestop : res.1 ≠ ⊤ := by
    intro h
    rw [h] at hminl0
    exact hl0top (top_le_iff.mp hminl0)
  have hres1 : res.1 = distOf (ranks.getD r []) := by rw [hresval]
  have hres2 : res.2 = r := by rw [hresval]
  have hrne : ranks.getD r [] ≠ [] := by
    intro h
    exact hrestop (hres1.trans ((distOf_eq_top_iff _).mpr h))
  obtain ⟨m, hscan, hmmem, hmmin⟩ := localMinScan_spec _ hrne
  obtain ⟨d, dist⟩ := m
  have hdist : distOf (ranks.getD r []) = (dist : WithTop ℚ) := by
    rw [distOf, hscan]
  have hrescoe : res.1 = (dist : WithTop ℚ) := hres1.trans hdist
  have hMR : minlocResult ranks = some ((dist : WithTop ℚ), r) := by
    rw [hMRres, hresval, hdist]
  have hSel : selectedDof ranks = some d := by
    unfold selectedDof
    rw [hMR]
    show (localMinScan (ranks.getD r [])).map Prod.fst = some d
    rw [hscan]
    rfl
  have haddseq : ∀ i, addsConstraint ranks i =
      ((ranks.getD i []).map Prod.fst).contains d := by
    intro i
    unfold addsConstraint
    rw [hSel]
  have hpinr : pinnedConstraints ranks r =
      if ((ranks.getD r []).map Prod.fst).contains d then
        [(d, 0)] else [] := by
    unfold pinnedConstraints
    rw [hSel]
  have hdmem : d ∈ (ranks.getD r []).map Prod.fst :=
    List.mem_map_of_mem Prod.fst hmmem
  have haddsr : addsConstraint ranks r = true := by
    rw [haddseq]
    simpa using hdmem
  have hnodisj := (List.nodup_flatten.mp hnodup).2
  have hL : ∀ i (hi : i < (ranks.map fun l => l.map Prod.fst).length),
      (ranks.map fun l => l.map Prod.fst)[i] =
        (ranks.getD i []).map Prod.fst := by
    intro i hi
    have hi2 : i < ranks.length := by simpa using hi
    rw [List.getElem_map, List.getD_eq_getElem ranks [] hi2]
  have haddsnot : ∀ i, i < ranks.length → i ≠ r →
      addsConstraint ranks i = false := by
    intro i hi hir
    rw [haddseq]
    by_contra hcon
    rw [Bool.not_eq_false] at hcon
    have hdmemi : d ∈ (ranks.getD i []).map Prod.fst := by
      simpa using hcon
    rcases Nat.lt_or_ge i r with h | h
    · have hdisj := List.pairwise_iff_getElem.mp hnodisj i r
        (by simpa using hi) (by simpa using hrlen) h
      rw [hL i (by simpa using hi), hL r (by simpa using hrlen)] at hdisj
      exact hdisj hdmemi hdmem
    · have hri : r < i := lt_of_le_of_ne h (Ne.symm hir)
      have hdisj := List.pairwise_iff_getElem.mp hnodisj r i
        (by simpa using hrlen) (by simpa using hi) hri
      rw [hL r (by simpa using hrlen), hL i (by simpa using hi)] at hdisj
      exact hdisj hdmem hdmemi
  have hfilter : (Finset.range ranks.length).filter
      (fun i => addsConstraint ranks i = true) = {r} := by
    ext i
    simp only [Finset.mem_filter, Finset.mem_range, Finset.mem_singleton]
    constructor
    · rintro ⟨hi, hai⟩
      by_contra hir
      rw [haddsnot i hi hir] at hai
      exact Bool.false_ne_true hai
    · rintro rfl
      exact ⟨hrlen, haddsr⟩
  have hpin : pinnedConstraints ranks r = [(d, 0)] := by
    rw [hpinr]
    simpa using hdmem
  have hglobal : ∀ l ∈ ranks, ∀ p ∈ l, dist ≤ p.2 := by
    intro l hl p hp
    obtain ⟨i, hi, hri⟩ := List.mem_iff_getElem.mp hl
    have hgd : ranks.getD i [] = l := by rw [List.getD_eq_getElem ranks [] hi, hri]
    have hlne : l ≠ [] := by
      intro h
      rw [h] at hp
      exact List.not_mem_nil p hp
    obtain ⟨m', hscan', hm'mem, hm'min⟩ := localMinScan_spec l hlne
    have hresle : res.1 ≤ distOf l := by
      have h := hmin _ (rankEntries_mem_rev ranks 0 i hi)
      rw [hgd] at h
      exact h
    have hdl : distOf l = (m'.2 : WithTop ℚ) := by rw [distOf, hscan']
    have hcoe : (dist : WithTop ℚ) ≤ (m'.2 : WithTop ℚ) := by
      rw [← hdl, ← hrescoe]
      exact hresle
    exact le_trans (WithTop.coe_le_coe.mp hcoe) (hm'min p hp)
  have htiebreak : ∀ i, i < ranks.length →
      distOf (ranks.getD i []) = (dist : WithTop ℚ) → r ≤ i := by
    intro i hi heq
    have := htie _ (rankEntries_mem_rev ranks 0 i hi)
      (by simpa using heq.trans hrescoe.symm)
    simpa [hres2] using this
  exact ⟨d, dist, r, hSel, hMR, hrlen, hmmem, hglobal, htiebreak, hfilter, hpin⟩

/-- Witness for `pressure_pin_C8`: two ranks, rank 0 owning dof 0 at
distance 5 and rank 1 owning dof 1 at distance 2. -/
theorem pressure_pin_C8_witness :
    (∃ l ∈ ([[(0, 5)], [(1, 2)]] : List (List (ℕ × ℚ))), l ≠ []) ∧
    (([[(0, 5)], [(1, 2)]] : List (List (ℕ × ℚ))).map
      (fun l => l.map Prod.fst)).flatten.Nodup ∧
    (∃ (d : ℕ) (dist : ℚ) (r : ℕ),
      selectedDof [[(0, 5)], [(1, 2)]] = some d ∧
      minlocResult [[(0, 5)], [(1, 2)]] = some ((dist : WithTop ℚ), r) ∧
      r < ([[(0, 5)], [(1, 2)]] : List (List (ℕ × ℚ))).length ∧
      (d, dist) ∈ ([[(0, 5)], [(1, 2)]] : List (List (ℕ × ℚ))).getD r [] ∧
      (∀ l ∈ ([[(0, 5)], [(1, 2)]] : List (List (ℕ × ℚ))),
        ∀ p ∈ l, dist ≤ p.2) ∧
      (∀ i, i < ([[(0, 5)], [(1, 2)]] : List (List (ℕ × ℚ))).length →
        distOf (([[(0, 5)], [(1, 2)]] : List (List (ℕ × ℚ))).getD i []) =
          (dist : WithTop ℚ) → r ≤ i) ∧
      (Finset.range ([[(0, 5)], [(1, 2)]] :
          List (List (ℕ × ℚ))).length).filter
        (fun i => addsConstraint [[(0, 5)], [(1, 2)]] i = true) = {r} ∧
      pinnedConstraints [[(0, 5)], [(1, 2)]] r = [(d, 0)]) :=
  ⟨by simp, by simp, pressure_pin_C8 _ (by simp) (by simp)⟩

/-- C7: the per-cell velocity mass coefficient is selected by the
indicator alone — `ρ_fluid/Δt` for indicator 0 and `(1+θ)ρ_solid/Δt`
for every nonzero indicator, no other value for any indicator — and the
assembled local mass entry factors as that coefficient times the
consistent mass integral `Σ_q (phi_u[i]·phi_u[j]) JxW(q)`. -/
theorem fluid_mass_coef_C7 (theta rho rho_s dt : ℚ) (ind : ℤ) {nq : ℕ}
    (phiDot jxw : Fin nq → ℚ) :
    cellMassCoef ind theta rho rho_s dt =
      (if ind = 0 then rho / dt else (1 + theta) * rho_s / dt) ∧
    localMassEntry ind theta rho rho_s dt phiDot jxw =
      cellMassCoef ind theta rho rho_s dt * ∑ q, phiDot q * jxw q := by
  constructor
  · unfold cellMassCoef mass_coef_f mass_coef_s dt_inv
    split <;> ring
  · unfold localMassEntry
    rw [Finset.mul_sum]
    exact Finset.sum_congr rfl fun q _ => by ring

/-- C9 as stated is false: the external-coupling wrapper's check
`(v == p) == 1` accepts the matched second-order pair `v = p = 2`,
which is not "matched first-order elements", so construction does not
fail there. -/
theorem element_degree_checks_C9_counterexample :
    sableWrapDegreeCheck 2 2 = true ∧ ¬(2 = 1) := by
  constructor
  · rfl
  · decide

/-- C9 amended: the standalone `Stokes` constructor's assertion passes
exactly when the velocity degree exceeds the pressure degree by one
(the `unsigned` wraparound never produces 1 for in-range degrees),
while the `SableWrap` constructor's assertion `(v == p) == 1` passes
exactly when the two degrees are equal — it does not enforce first
order. -/
theorem element_degree_checks_C9 (v p : ℕ)
    (hv : v < 2 ^ 32) (hp : p + 1 < 2 ^ 32) :
    (stokesDegreeCheck v p = true ↔ v = p + 1) ∧
    (sableWrapDegreeCheck v p = true ↔ v = p) := by
  constructor
  · simp only [stokesDegreeCheck, beq_iff_eq]
    omega
  · simp only [sableWrapDegreeCheck, beq_iff_eq]
    split <;> simp_all

/-- Witness for `element_degree_checks_C9` at `v = 3`, `p = 2`. -/
theorem element_degree_checks_C9_witness :
    3 < 2 ^ 32 ∧ 2 + 1 < 2 ^ 32 ∧
    ((stokesDegreeCheck 3 2 = true ↔ 3 = 2 + 1) ∧
     (sableWrapDegreeCheck 3 2 = true ↔ 3 = 2)) :=
  ⟨by norm_num, by norm_num,
   element_degree_checks_C9 3 2 (by norm_num) (by norm_num)⟩

/-- C2: with two materials configured and a cell whose region id is 3,
both `assemble` and `update_strain_and_stress` reach the lookup
`material[mat_id - 1]` with `mat_id - 1 = 2` outside the 2-element
material list — the access is out of range (`none`), and no
configuration error guards it: the spec's "fails with a configuration
error" has no counterpart in the code. -/
theorem material_lookup_oob_C2 :
    assembleMaterialAccess
      [⟨1, 1/4, 1, 0⟩, ⟨2, 1/3, 1, 0⟩] 3 = none ∧
    strainStressMaterialAccess
      [⟨1, 1/4, 1, 0⟩, ⟨2, 1/3, 1, 0⟩] 2 3 = none := by
  constructor <;> rfl

/-- C4: for every damping parameter `d ∈ [0, 1)` the integrator's
constants are `α = -d`, `γ = 0.5 - α`, `β = (1 - α)²/4`; hence `β ≥ 0`
and `γ ≥ 0.5 - α`, and `d = 0` gives the classical `β = 1/4`, `γ = 1/2`. -/
theorem newmark_constants_C4 (d : ℚ) (h0 : 0 ≤ d) (h1 : d < 1) :
    newmarkAlpha d = -d ∧
    newmarkGamma d = 1/2 - newmarkAlpha d ∧
    newmarkBeta d = (1 - newmarkAlpha d) ^ 2 / 4 ∧
    0 ≤ newmarkBeta d ∧
    1/2 - newmarkAlpha d ≤ newmarkGamma d ∧
    (d = 0 → newmarkBeta d = 1/4 ∧ newmarkGamma d = 1/2) := by
  refine ⟨rfl, rfl, rfl, ?_, le_refl _, ?_⟩
  · unfold newmarkBeta
    positivity
  · rintro rfl
    constructor <;> norm_num [newmarkBeta, newmarkGamma, newmarkAlpha]

/-- Witness for `newmark_constants_C4` at `d = 0`. -/
theorem newmark_constants_C4_witness :
    (0 : ℚ) ≤ 0 ∧ (0 : ℚ) < 1 ∧
    (newmarkAlpha 0 = -0 ∧
     newmarkGamma 0 = 1/2 - newmarkAlpha 0 ∧
     newmarkBeta 0 = (1 - newmarkAlpha 0) ^ 2 / 4 ∧
     0 ≤ newmarkBeta 0 ∧
     1/2 - newmarkAlpha 0 ≤ newmarkGamma 0 ∧
     ((0 : ℚ) = 0 → newmarkBeta 0 = 1/4 ∧ newmarkGamma 0 = 1/2)) :=
  ⟨le_refl 0, by norm_num, newmark_constants_C4 0 (le_refl 0) (by norm_num)⟩

/-- C5: in a non-initial step the updated fields satisfy
`vₙ₊₁ = vₙ + Δt(1-γ)aₙ + Δtγaₙ₊₁` and
`dₙ₊₁ = dₙ + Δt·vₙ + Δt²(0.5-β)aₙ + Δt²β·aₙ₊₁` at every degree of
freedom, where the left-hand sides are the source's sequences of
deal.II `add` calls. -/
theorem newmark_update_laws_C5 {n : ℕ} (dt gamma beta : ℚ)
    (dprev vprev aprev acur : Vec n) (i : Fin n) :
    updateVelocity dt gamma vprev aprev acur i =
      vprev i + dt * (1 - gamma) * aprev i + dt * gamma * acur i ∧
    updateDisplacement dt beta dprev vprev aprev acur i =
      dprev i + dt * vprev i + dt * dt * (1/2 - beta) * aprev i
        + dt * dt * beta * acur i := by
  constructor <;> simp [updateVelocity, updateDisplacement, vecAdd1]

/-- C10: in the FSI, implicit-penalty branch the vector handed to the
solver equals `system_rhs - K·(Newmark predictor) - C·vₙ - C·aₙ`, the
two damping products entering with coefficient exactly 1: the
`dt (1-γ)` scaling of `tmp4` is overwritten by the subsequent `vmult`
and has no effect. -/
theorem effective_rhs_C10 {n : ℕ} (dt alpha beta gamma : ℚ)
    (rhs : Vec n) (K C : Mat n) (dprev vprev aprev : Vec n) (i : Fin n) :
    effectiveRhs dt alpha beta gamma rhs K C dprev vprev aprev i =
      rhs i
        - vmult K (newmarkPredictor dt alpha beta dprev vprev aprev) i
        - 1 * vmult C aprev i
        - 1 * vmult C vprev i := by
  simp [effectiveRhs, vecSub, vmultInto, vecScale]

end OpenIFEM
